import Mathlib

/-!
Verification development for `ec2_spot_prices_to_graphite.py`.

Strings are modelled as `List Char`; bytes as `Nat` values below 256.
Python's `datetime` timestamps are abstracted to integer POSIX seconds
(the script truncates them with `int(...)` before use), and 64-bit
floating point values are represented by their IEEE-754 bit patterns
(`Fin (2 ^ 64)`), since the script never computes with the parsed price:
it only parses it and serializes it back out.
-/

/-- Models Python's regex class `\s` (with Unicode semantics, as used by
`re.sub` on `str`): ASCII whitespace, the separator control characters
U+001C..U+001F, NEL, NBSP, and the Unicode space separators. -/
def isPySpace (c : Char) : Bool :=
  let n := c.toNat
  decide (n = 32 ∨ n = 9 ∨ n = 10 ∨ n = 11 ∨ n = 12 ∨ n = 13 ∨
    (28 ≤ n ∧ n ≤ 31) ∨ n = 133 ∨ n = 160 ∨ n = 5760 ∨
    (8192 ≤ n ∧ n ≤ 8202) ∨ n = 8232 ∨ n = 8233 ∨ n = 8239 ∨ n = 8287 ∨ n = 12288)

/-- Models membership in the regex class `[a-zA-Z_\-0-9\.]` of
`sanatize_string`'s third stage (65..90 = `A-Z`, 97..122 = `a-z`,
95 = `_`, 45 = `-`, 48..57 = `0-9`, 46 = `.`). -/
def isAllowed (c : Char) : Bool :=
  let n := c.toNat
  decide ((65 ≤ n ∧ n ≤ 90) ∨ (97 ≤ n ∧ n ≤ 122) ∨ n = 95 ∨ n = 45 ∨
    (48 ≤ n ∧ n ≤ 57) ∨ n = 46)

/-- Stage 1 of `sanatize_string` (lines 46-50): `re.sub(r'\s', '_', s)` when
`keep_dots` holds, otherwise `re.sub(r'[\s\.]', '_', s)`, per character
(46 = `.`). -/
def stage1Char (keep_dots : Bool) (c : Char) : Char :=
  if (if keep_dots then isPySpace c else isPySpace c || decide (c.toNat = 46)) then '_' else c

/-- Stage 2 of `sanatize_string` (line 51): `re.sub(r'[\/]', '-', s)`,
per character (47 = `/`). -/
def stage2Char (c : Char) : Char :=
  if c.toNat = 47 then '-' else c

/-- Stage 4 of `sanatize_string` (line 53): `str.lower()`. Python lowercases
the full Unicode repertoire, but stage 3 has already restricted the string to
`[a-zA-Z_\-0-9.]`, on which `lower()` only maps `A-Z` (65..90) to `a-z`
(by adding 32); on every other character that survives stage 3 it is the
identity, which is what this per-character function implements. -/
def pyLower (c : Char) : Char :=
  if 65 ≤ c.toNat ∧ c.toNat ≤ 90 then Char.ofNat (c.toNat + 32) else c

/-- Models `sanatize_string` (lines 41-53): replace whitespace (and dots,
unless `keep_dots`) with `_`, replace `/` with `-`, strip every character
outside `[a-zA-Z_\-0-9\.]`, then lowercase. -/
def sanatize_string (s : List Char) (keep_dots : Bool := false) : List Char :=
  ((((s.map (stage1Char keep_dots)).map stage2Char).filter isAllowed).map pyLower)

/-- Models the metric path construction of `get_spot_prices` (lines 90-97):
an optional truthy prefix is sanitized with `keep_dots=True` and prepended
with a trailing dot; the three dimensions are sanitized with the default
`keep_dots=False` and joined with dots. `none` models Python `None`; a
`some []` prefix is falsy in Python and is likewise skipped. `pfxPart` is
the leading `'%s.' % sanatize_string(graphite_prefix, keep_dots=True)`
piece (lines 90-92), `build_path` the whole `path` value (lines 90-97). -/
def pfxPart (pfx : Option (List Char)) : List Char :=
  match pfx with
  | some g => if g.isEmpty then [] else sanatize_string g true ++ ['.']
  | none => []

def build_path (pfx : Option (List Char)) (zone itype product : List Char) : List Char :=
  pfxPart pfx ++
  sanatize_string zone false ++ ['.'] ++
  sanatize_string itype false ++ ['.'] ++
  sanatize_string product false

/-- A 64-bit floating point value, represented by its IEEE-754 bit pattern. -/
abbrev PyFloat := Fin (2 ^ 64)

/-- Models one record of the `SpotPriceHistory` list returned by
`describe_spot_price_history`: the fields the script reads at lines 94-102.
The `Timestamp` datetime is abstracted to integer POSIX seconds. -/
structure RawItem where
  availabilityZone : List Char
  instanceType : List Char
  productDescription : List Char
  timestamp : Int
  spotPrice : List Char
deriving DecidableEq

/-- Models one element of the `metrics` list built at line 104: the
pickle-compatible tuple `(path, (timestamp, value))`. -/
structure Metric where
  path : List Char
  timestamp : Int
  value : PyFloat
deriving DecidableEq

/-- Consumes a digit run of the form `digit ('_'? digit)*` after its first
digit has been read: underscores are only allowed between two digits
(PEP 515), as accepted by Python's `float()`. Returns the unconsumed rest. -/
def chompMore : List Char → List Char
  | '_' :: c :: rest => if 48 ≤ c.toNat ∧ c.toNat ≤ 57 then chompMore rest else '_' :: c :: rest
  | c :: rest => if 48 ≤ c.toNat ∧ c.toNat ≤ 57 then chompMore rest else c :: rest
  | [] => []

/-- Consumes one `digitpart` (`digit ('_'? digit)*`); fails when the input
does not start with a digit. Returns the unconsumed rest. -/
def chompDigitpart : List Char → Option (List Char)
  | c :: rest => if 48 ≤ c.toNat ∧ c.toNat ≤ 57 then some (chompMore rest) else none
  | [] => none

/-- Accepts an optional exponent suffix `(e|E) (+|-)? digitpart` followed by
the end of the string. -/
def expPart : List Char → Bool
  | [] => true
  | c :: rest =>
    (c.toNat = 101 || c.toNat = 69) &&
    (let rest2 := match rest with
       | s :: r2 => if s.toNat = 43 ∨ s.toNat = 45 then r2 else rest
       | [] => rest
     match chompDigitpart rest2 with
     | some r => r.isEmpty
     | none => false)

/-- Accepts the decimal (non-inf/nan) body of a Python float literal after
the optional sign: `digitpart ('.' digitpart?)? exp?` or `'.' digitpart exp?`. -/
def floatDecimal (s : List Char) : Bool :=
  match s with
  | '.' :: rest =>
    (match chompDigitpart rest with
     | some r => expPart r
     | none => false)
  | _ =>
    match chompDigitpart s with
    | some r =>
      (match r with
       | '.' :: r2 =>
         (match chompDigitpart r2 with
          | some r3 => expPart r3
          | none => expPart r2)
       | _ => expPart r)
    | none => false

/-- Accepts the special words `inf`, `infinity` and `nan` (case-insensitive)
after the optional sign. -/
def isInfNan (s : List Char) : Bool :=
  let t := s.map pyLower
  t = "inf".data || t = "infinity".data || t = "nan".data

/-- Models the acceptance condition of CPython's `float(str)` on the ASCII
repertoire: surrounding whitespace is stripped, then an optional sign
followed by `inf`/`infinity`/`nan` or a decimal literal (with PEP 515
underscores). CPython additionally translates non-ASCII Unicode decimal
digits to ASCII first; that translation is not modelled — the spot price
strings delivered by the API are plain ASCII decimals. -/
def isPyFloatString (s : List Char) : Bool :=
  let t := ((s.dropWhile isPySpace).reverse.dropWhile isPySpace).reverse
  let body := match t with
    | c :: rest => if c.toNat = 43 ∨ c.toNat = 45 then rest else t
    | [] => t
  !t.isEmpty && (isInfNan body || floatDecimal body)

/-- The successful-case transformation of one record into a metric tuple
(lines 90-104): the path from `build_path`, the truncated timestamp, and the
parsed price. The numeric value of `float(spot_price)` is abstracted by the
parameter `fv` giving the IEEE-754 bit pattern of the parse result. -/
def metric_of_item (fv : List Char → PyFloat) (pfx : Option (List Char)) (it : RawItem) : Metric :=
  { path := build_path pfx it.availabilityZone it.instanceType it.productDescription
    timestamp := it.timestamp
    value := fv it.spotPrice }

/-- Models the per-record body of the loop at lines 89-104.
`float(item['SpotPrice'])` at line 102 raises `ValueError` when the string
is not numeric; that failure is the `.error` case. -/
def transform_item (fv : List Char → PyFloat) (pfx : Option (List Char)) (it : RawItem) :
    Except Unit Metric :=
  if isPyFloatString it.spotPrice then .ok (metric_of_item fv pfx it) else .error ()

/-- Models the whole metrics-building loop (lines 88-105): records are
processed in order; the first non-numeric price aborts the loop with the
uncaught `ValueError`. -/
def build_metrics (fv : List Char → PyFloat) (pfx : Option (List Char)) :
    List RawItem → Except Unit (List Metric)
  | [] => .ok []
  | it :: rest => do
    let m ← transform_item fv pfx it
    let ms ← build_metrics fv pfx rest
    .ok (m :: ms)

/-- Observable end of one invocation's transform phase. `fatal code logged`
means the process terminates with exit status `code`, and `logged` records
whether a message was emitted through the logging facility at error
severity on the way out. -/
inductive RunResult where
  | success (ms : List Metric)
  | fatal (exitCode : Nat) (errLogged : Bool)
deriving DecidableEq

/-- Models what the process does with the transform loop's outcome: on
success the metrics list is produced; a non-numeric price raises an
uncaught `ValueError`, which makes the interpreter print a traceback and
exit with status 1 — no `logging.error` call is executed on that path
(unlike the `BotoCoreError` and `socket.error` handlers at lines 69-71,
82-84 and 118-122). -/
def transform_outcome (fv : List Char → PyFloat) (pfx : Option (List Char))
    (items : List RawItem) : RunResult :=
  match build_metrics fv pfx items with
  | .ok ms => .success ms
  | .error _ => .fatal 1 false

/-- One response of `describe_spot_price_history`: the page's records and
the continuation token (`none` models an absent `NextToken` key). -/
structure SpotResponse where
  history : List RawItem
  nextToken : Option (List Char)
deriving DecidableEq

/-- Models the loop guard `'NextToken' in response and response['NextToken']`
at line 74: the token must be present and non-empty (truthy). -/
def truthyToken : Option (List Char) → Bool
  | none => false
  | some t => !t.isEmpty

/-- Models the pagination loop of `get_spot_prices` (lines 73-86) over a
prescribed sequence of API responses: `first` answers the initial query and
`rest` answers the follow-up queries in order; while the previous response
carries a truthy token, the next page's records are appended. -/
def collect_items : SpotResponse → List SpotResponse → List RawItem
  | r, [] => r.history
  | r, r2 :: rs => if truthyToken r.nextToken then r.history ++ collect_items r2 rs else r.history

/-- The `k` least significant base-256 digits of `n`, least significant
first, as `struct.pack` produces for little-endian unsigned formats. -/
def toLE : Nat → Nat → List Nat
  | 0, _ => []
  | k + 1, n => n % 256 :: toLE k (n / 256)

/-- The `k` base-256 digits of `n`, most significant first (big-endian). -/
def toBE (k n : Nat) : List Nat := (toLE k n).reverse

/-- Reads a little-endian byte list back as a natural number. -/
def fromLE : List Nat → Nat
  | [] => 0
  | b :: bs => b + 256 * fromLE bs

/-- Reads a big-endian byte list back as a natural number. -/
def fromBE (bs : List Nat) : Nat := fromLE bs.reverse

/-- UTF-8 encoding of one character, as `str.encode('utf-8')` produces for
each code point. -/
def utf8Char (c : Char) : List Nat :=
  let n := c.toNat
  if n < 0x80 then [n]
  else if n < 0x800 then [0xC0 + n / 0x40, 0x80 + n % 0x40]
  else if n < 0x10000 then [0xE0 + n / 0x1000, 0x80 + n / 0x40 % 0x40, 0x80 + n % 0x40]
  else [0xF0 + n / 0x40000, 0x80 + n / 0x1000 % 0x40, 0x80 + n / 0x40 % 0x40, 0x80 + n % 0x40]

/-- UTF-8 encoding of a string. -/
def utf8Encode (s : List Char) : List Nat := (s.map utf8Char).flatten

/-- The sign-byte trim step of `pickle.encode_long`: for a negative value
whose representation ends in a redundant `0xFF` byte (the byte below it
already has its sign bit set), that last byte is dropped. -/
def trimSign (i : Int) (r : List Nat) : List Nat :=
  if i < 0 then
    match r.reverse with
    | b1 :: b2 :: _ => if b1 = 0xFF ∧ 0x80 ≤ b2 then r.dropLast else r
    | _ => r
  else r

/-- Models `pickle.encode_long`: the minimal little-endian two's-complement
representation of an integer, empty for zero. The byte count starts at
`bit_length // 8 + 1` (`Nat.size` is Python's `int.bit_length` on the
absolute value) and `trimSign` drops one redundant sign byte. -/
def encode_long (i : Int) : List Nat :=
  if i = 0 then [] else
  trimSign i
    (toLE (Nat.size i.natAbs / 8 + 1)
      ((i % ((2 : Int) ^ (8 * (Nat.size i.natAbs / 8 + 1)))).toNat))

/-- Models the opcode selection of the pickler's `save_long` for one `int`:
`BININT1`/`BININT2` for small non-negative values, `BININT` for the signed
32-bit range, otherwise `LONG1`/`LONG4` around `encode_long`.
`none` models `struct.error` (a `LONG4` length beyond the signed 32-bit
range cannot be packed). -/
def saveInt (i : Int) : Option (List Nat) :=
  if 0 ≤ i ∧ i ≤ 0xFF then some [0x4B, i.toNat]
  else if 0 ≤ i ∧ i ≤ 0xFFFF then some (0x4D :: toLE 2 i.toNat)
  else if -0x80000000 ≤ i ∧ i ≤ 0x7FFFFFFF then
    some (0x4A :: toLE 4 (i % ((2 : Int) ^ 32)).toNat)
  else
    if (encode_long i).length < 256 then
      some (0x8A :: (encode_long i).length :: encode_long i)
    else if (encode_long i).length < 2 ^ 31 then
      some (0x8B :: toLE 4 (encode_long i).length ++ encode_long i)
    else none

/-- Models the pickler's memo `put`: `BINPUT` with a one-byte index below
256, otherwise `LONG_BINPUT` with a four-byte little-endian index (which
`struct.pack('<I', ...)` refuses beyond 32 bits). -/
def putOp (idx : Nat) : Option (List Nat) :=
  if idx < 256 then some [0x71, idx]
  else if idx < 2 ^ 32 then some (0x72 :: toLE 4 idx)
  else none

/-- Pickle protocol 2 bytes for the tuple `(path, (timestamp, value))` of the
`i`-th metric (0-based): `BINUNICODE` + memo put, the two scalars, `TUPLE2` +
memo put for the inner tuple, `TUPLE2` + memo put for the outer one. The
list occupies memo slot 0, so item `i` uses slots `3i+1`, `3i+2`, `3i+3`. -/
def encodeMetric (m : Metric) (i : Nat) : Option (List Nat) := do
  let u := utf8Encode m.path
  let sl ← if u.length < 2 ^ 32 then some (toLE 4 u.length) else none
  let p1 ← putOp (3 * i + 1)
  let ib ← saveInt m.timestamp
  let p2 ← putOp (3 * i + 2)
  let p3 ← putOp (3 * i + 3)
  some (0x58 :: (sl ++ u ++ p1 ++ ib ++ (0x47 :: toBE 8 m.value.val) ++
    [0x86] ++ p2 ++ [0x86] ++ p3))

/-- Pickle bytes of a run of consecutive items, `i` being the ordinal of the
first one. -/
def encodeItems : List Metric → Nat → Option (List Nat)
  | [], _ => some []
  | m :: rest, i => do
    let b ← encodeMetric m i
    let r ← encodeItems rest (i + 1)
    some (b ++ r)

/-- Models the batching loop of the C pickler's `batch_list`: each group of
up to 1000 items is wrapped in `MARK` ... `APPENDS`. -/
def encodeGroups : List Metric → Nat → Option (List Nat)
  | [], _ => some []
  | m :: rest, i => do
    let g := (m :: rest).take 1000
    let gb ← encodeItems g i
    let rb ← encodeGroups ((m :: rest).drop 1000) (i + g.length)
    some (0x28 :: (gb ++ [0x65] ++ rb))
termination_by ms => ms.length
decreasing_by simp only [List.length_drop, List.length_cons]; omega

/-- Body of the pickled list: nothing for an empty list, a single item
followed by `APPEND` for a one-element list, otherwise `MARK`/`APPENDS`
groups of at most 1000 items. -/
def encodeBody : List Metric → Option (List Nat)
  | [] => some []
  | [m] => do
    let b ← encodeMetric m 0
    some (b ++ [0x61])
  | ms => encodeGroups ms 0

/-- Models `pickle.dumps(metrics, protocol=2)` at line 110 for the metrics
list: `PROTO 2`, `EMPTY_LIST`, `BINPUT 0`, the batched items, `STOP`.
`none` models `struct.error` on an unpackable length. -/
def pickle_dumps (ms : List Metric) : Option (List Nat) := do
  let body ← encodeBody ms
  some ([0x80, 2, 0x5D, 0x71, 0] ++ body ++ [0x2E])

/-- Models `struct.pack("!L", n)` at line 111: the four-byte big-endian
encoding of `n`, refused beyond 32 bits. -/
def pack_uint32 (n : Nat) : Option (List Nat) :=
  if n < 2 ^ 32 then some (toBE 4 n) else none

/-- Models lines 110-112 of `send_to_graphite`: the framed message
`header + payload` written to the collector socket. -/
def graphite_message (ms : List Metric) : Option (List Nat) := do
  let payload ← pickle_dumps ms
  let hd ← pack_uint32 payload.length
  some (hd ++ payload)

/-! A conforming reader for the emitted subset of pickle protocol 2,
used to state the round-trip property. -/

/-- Splits off the first `k` bytes, failing when fewer are available. -/
def readBytes (k : Nat) (s : List Nat) : Option (List Nat × List Nat) :=
  if k ≤ s.length then some (s.take k, s.drop k) else none

/-- Consumes one expected byte. -/
def expectByte (b : Nat) : List Nat → Option (List Nat)
  | x :: rest => if x = b then some rest else none
  | [] => none

/-- Consumes a `BINPUT` or `LONG_BINPUT` memo instruction. The reader keeps
no memo because the emitted stream never fetches from it. -/
def parsePut : List Nat → Option (List Nat)
  | 0x71 :: _ :: rest => some rest
  | 0x72 :: _ :: _ :: _ :: _ :: rest => some rest
  | _ => none

/-- Models `pickle.decode_long`: little-endian two's-complement, the empty
list denoting zero. -/
def decode_long (bs : List Nat) : Int :=
  match bs.getLast? with
  | none => 0
  | some b =>
    if 0x80 ≤ b then (fromLE bs : Int) - (2 : Int) ^ (8 * bs.length) else (fromLE bs : Int)

/-- Reads one pickled integer (`BININT1`, `BININT2`, `BININT`, `LONG1` or
`LONG4`). -/
def parseInt : List Nat → Option (Int × List Nat)
  | 0x4B :: b :: rest => some ((b : Int), rest)
  | 0x4D :: b0 :: b1 :: rest => some ((b0 + 256 * b1 : Nat), rest)
  | 0x4A :: b0 :: b1 :: b2 :: b3 :: rest =>
    let u : Nat := b0 + 256 * (b1 + 256 * (b2 + 256 * b3))
    some (if u < 2 ^ 31 then (u : Int) else (u : Int) - 2 ^ 32, rest)
  | 0x8A :: n :: rest => do
    let (d, r) ← readBytes n rest
    some (decode_long d, r)
  | 0x8B :: a :: b :: c :: d :: rest => do
    let (dd, r) ← readBytes (a + 256 * (b + 256 * (c + 256 * d))) rest
    some (decode_long dd, r)
  | _ => none

/-- Holds for a UTF-8 continuation byte `10xxxxxx`. -/
def contByte (b : Nat) : Bool := 0x80 ≤ b && b < 0xC0

/-- Reads the continuation byte of a 2-byte UTF-8 sequence. -/
def twoCont (b : Nat) : List Nat → Option (Char × List Nat)
  | b2 :: rest =>
    if contByte b2 then some (Char.ofNat ((b - 0xC0) * 0x40 + (b2 - 0x80)), rest) else none
  | [] => none

/-- Reads the two continuation bytes of a 3-byte UTF-8 sequence. -/
def threeCont (b : Nat) : List Nat → Option (Char × List Nat)
  | b2 :: b3 :: rest =>
    if contByte b2 && contByte b3 then
      some (Char.ofNat ((b - 0xE0) * 0x1000 + (b2 - 0x80) * 0x40 + (b3 - 0x80)), rest)
    else none
  | _ => none

/-- Reads the three continuation bytes of a 4-byte UTF-8 sequence. -/
def fourCont (b : Nat) : List Nat → Option (Char × List Nat)
  | b2 :: b3 :: b4 :: rest =>
    if contByte b2 && contByte b3 && contByte b4 then
      some (Char.ofNat ((b - 0xF0) * 0x40000 + (b2 - 0x80) * 0x1000 +
        (b3 - 0x80) * 0x40 + (b4 - 0x80)), rest)
    else none
  | _ => none

/-- Decodes one UTF-8 encoded character from the head of a byte sequence,
returning it with the unconsumed rest; fails on malformed input. -/
def utf8DecodeOne : List Nat → Option (Char × List Nat)
  | [] => none
  | b :: bs =>
    if b < 0x80 then some (Char.ofNat b, bs)
    else if b < 0xC0 then none
    else if b < 0xE0 then twoCont b bs
    else if b < 0xF0 then threeCont b bs
    else if b < 0xF8 then fourCont b bs
    else none

/-- Decodes up to `fuel` UTF-8 characters; a byte is consumed on every step,
so `fuel = length` always suffices. -/
def utf8DecodeAux : Nat → List Nat → Option (List Char)
  | _, [] => some []
  | 0, _ :: _ => none
  | fuel + 1, b :: bs => do
    let (c, r) ← utf8DecodeOne (b :: bs)
    let cs ← utf8DecodeAux fuel r
    some (c :: cs)

/-- Decodes a UTF-8 byte sequence back to characters, failing on malformed
input. -/
def utf8Decode (bs : List Nat) : Option (List Char) := utf8DecodeAux bs.length bs

/-- Reads one `BINUNICODE` string. -/
def parseStr (s : List Nat) : Option (List Char × List Nat) := do
  let r0 ← expectByte 0x58 s
  let (lb, r1) ← readBytes 4 r0
  let (sb, r2) ← readBytes (fromLE lb) r1
  let cs ← utf8Decode sb
  some (cs, r2)

/-- Reads one pickled `(path, (timestamp, value))` tuple together with its
memo instructions. -/
def parseItem (s : List Nat) : Option (Metric × List Nat) := do
  let (p, r1) ← parseStr s
  let r2 ← parsePut r1
  let (ts, r3) ← parseInt r2
  let r4 ← expectByte 0x47 r3
  let (fb, r5) ← readBytes 8 r4
  let r6 ← expectByte 0x86 r5
  let r7 ← parsePut r6
  let r8 ← expectByte 0x86 r7
  let r9 ← parsePut r8
  some (⟨p, ts, Fin.ofNat' (2 ^ 64) (fromBE fb)⟩, r9)

/-- Reads the items of one `MARK` ... `APPENDS` group, the mark having been
consumed already. -/
def parseGroupItems : Nat → List Nat → Option (List Metric × List Nat)
  | _, 0x65 :: rest => some ([], rest)
  | fuel + 1, s => do
    let (m, r) ← parseItem s
    let (ms, r2) ← parseGroupItems fuel r
    some (m :: ms, r2)
  | 0, _ => none

/-- Reads the body of the pickled list up to `STOP`: a sequence of
`MARK` ... `APPENDS` groups and single `APPEND`-ed items. -/
def parseBody : Nat → List Nat → Option (List Metric)
  | _, 0x2E :: _ => some []
  | fuel + 1, 0x28 :: s => do
    let (g, r) ← parseGroupItems (fuel + 1) s
    let ms ← parseBody fuel r
    some (g ++ ms)
  | fuel + 1, s => do
    let (m, r) ← parseItem s
    let r2 ← expectByte 0x61 r
    let ms ← parseBody fuel r2
    some (m :: ms)
  | 0, _ => none

/-- A conforming reader for the payloads this script emits: checks the
protocol preamble, the empty-list and memo opcodes, then folds the appended
items into a list. -/
def pickle_loads (payload : List Nat) : Option (List Metric) :=
  match payload with
  | 0x80 :: 2 :: 0x5D :: 0x71 :: 0 :: rest => parseBody payload.length rest
  | _ => none

/-- Decides whether a string contains two consecutive dots. -/
def hasConsecDots : List Char → Bool
  | a :: b :: rest => (a == '.' && b == '.') || hasConsecDots (b :: rest)
  | _ => false

/-- A concrete stand-in for the float-parsing semantics, used to instantiate
the `fv` parameter on concrete inputs. -/
def cfv : List Char → PyFloat := fun _ => ⟨0, by norm_num⟩

/-- First concrete record for witness instantiations. -/
def itemA : RawItem :=
  { availabilityZone := "a".data
    instanceType := "b".data
    productDescription := "c".data
    timestamp := 1
    spotPrice := "0.5".data }

/-- Second concrete record for witness instantiations. -/
def itemB : RawItem :=
  { availabilityZone := "d".data
    instanceType := "e".data
    productDescription := "f".data
    timestamp := 2
    spotPrice := "1.5".data }

/-- A concrete first response page carrying a truthy continuation token. -/
def respA : SpotResponse := { history := [itemA], nextToken := some "t".data }

/-- A concrete final response page with no continuation token. -/
def respB : SpotResponse := { history := [itemB], nextToken := none }

/-- A concrete metric sample for round-trip witness instantiations. -/
def metricW : Metric :=
  { path := "a".data
    timestamp := 1
    value := ⟨0, by norm_num⟩ }

/-- A record whose zone and instance type sanitize to the empty string —
the "double dot" quirk the spec documents for empty segments. -/
def itemQuirk : RawItem :=
  { availabilityZone := []
    instanceType := []
    productDescription := "x".data
    timestamp := 0
    spotPrice := "0.5".data }

/-! Character-level helper lemmas. -/

theorem char_toNat_inj {a b : Char} (h : a.toNat = b.toNat) : a = b :=
  Char.ext (UInt32.ext h)

theorem char_eq_iff_toNat {a b : Char} : a = b ↔ a.toNat = b.toNat :=
  ⟨fun h => h ▸ rfl, char_toNat_inj⟩

theorem char_toNat_lt (c : Char) : c.toNat < 1114112 := by
  have h := c.valid
  simp only [Char.toNat]
  rcases h with h | h <;> omega

theorem toNat_ofNat_valid {n : Nat} (h : n < 55296) : (Char.ofNat n).toNat = n := by
  have hv : n.isValidChar := Or.inl h
  simp only [Char.ofNat, hv, dif_pos]
  simp [Char.ofNatAux, Char.toNat, UInt32.toNat, UInt32.ofNat']

theorem pyLower_toNat (c : Char) :
    (pyLower c).toNat = if 65 ≤ c.toNat ∧ c.toNat ≤ 90 then c.toNat + 32 else c.toNat := by
  by_cases h : 65 ≤ c.toNat ∧ c.toNat ≤ 90
  · simp only [pyLower, if_pos h]
    exact toNat_ofNat_valid (by omega)
  · simp only [pyLower, if_neg h, if_neg h]

theorem isAllowed_iff {c : Char} :
    isAllowed c = true ↔ ((65 ≤ c.toNat ∧ c.toNat ≤ 90) ∨ (97 ≤ c.toNat ∧ c.toNat ≤ 122) ∨
      c.toNat = 95 ∨ c.toNat = 45 ∨ (48 ≤ c.toNat ∧ c.toNat ≤ 57) ∨ c.toNat = 46) := by
  simp [isAllowed]

theorem isPySpace_iff {c : Char} :
    isPySpace c = true ↔ (c.toNat = 32 ∨ c.toNat = 9 ∨ c.toNat = 10 ∨ c.toNat = 11 ∨
      c.toNat = 12 ∨ c.toNat = 13 ∨ (28 ≤ c.toNat ∧ c.toNat ≤ 31) ∨ c.toNat = 133 ∨
      c.toNat = 160 ∨ c.toNat = 5760 ∨ (8192 ≤ c.toNat ∧ c.toNat ≤ 8202) ∨ c.toNat = 8232 ∨
      c.toNat = 8233 ∨ c.toNat = 8239 ∨ c.toNat = 8287 ∨ c.toNat = 12288) := by
  simp [isPySpace]

theorem stage1Char_false (c : Char) :
    stage1Char false c = if (isPySpace c || decide (c.toNat = 46)) then '_' else c := rfl

theorem stage1Char_true (c : Char) :
    stage1Char true c = if isPySpace c then '_' else c := rfl

/-- The first two stages map a character to `_`, to `-`, or leave it
unchanged — and an unchanged character is not `/`, nor a dot when
`keep_dots` is false, nor whitespace. -/
theorem pipe_d_cases (k : Bool) (e : Char) :
    (stage2Char (stage1Char k e)).toNat = 95 ∨ (stage2Char (stage1Char k e)).toNat = 45 ∨
      ((stage2Char (stage1Char k e)).toNat = e.toNat ∧ e.toNat ≠ 47 ∧ isPySpace e = false ∧
        (k = false → e.toNat ≠ 46)) := by
  have h2 : ∀ x : Char, (stage2Char x).toNat = if x.toNat = 47 then 45 else x.toNat := by
    intro x
    by_cases h : x.toNat = 47
    · simp [stage2Char, h]
    · simp [stage2Char, h]
  cases k
  · rw [stage1Char_false e]
    by_cases h1 : (isPySpace e || decide (e.toNat = 46)) = true
    · rw [if_pos h1]; left; rw [h2]; decide
    · rw [if_neg h1]
      simp only [Bool.or_eq_true, decide_eq_true_eq, not_or, Bool.not_eq_true] at h1
      rw [h2]
      by_cases h47 : e.toNat = 47
      · right; left; rw [if_pos h47]
      · right; right
        rw [if_neg h47]
        exact ⟨rfl, h47, h1.1, fun _ => h1.2⟩
  · rw [stage1Char_true e]
    by_cases h1 : isPySpace e = true
    · rw [if_pos h1]; left; rw [h2]; decide
    · rw [if_neg h1]
      rw [h2]
      by_cases h47 : e.toNat = 47
      · right; left; rw [if_pos h47]
      · right; right
        rw [if_neg h47]
        exact ⟨rfl, h47, by simpa using h1, fun h => by cases h⟩

/-- Characterizes the characters that can appear in a sanitized string: the
lowercase letters, `_`, `-`, the digits, and — only when dots are kept —
the dot. -/
theorem sanatize_mem {s : List Char} {k : Bool} {c : Char} (h : c ∈ sanatize_string s k) :
    (97 ≤ c.toNat ∧ c.toNat ≤ 122) ∨ c.toNat = 95 ∨ c.toNat = 45 ∨
      (48 ≤ c.toNat ∧ c.toNat ≤ 57) ∨ (k = true ∧ c.toNat = 46) := by
  simp only [sanatize_string, List.mem_map, List.mem_filter] at h
  obtain ⟨d, ⟨hd, hall⟩, rfl⟩ := h
  obtain ⟨a, ha, rfl⟩ := hd
  obtain ⟨e, -, rfl⟩ := ha
  rw [isAllowed_iff] at hall
  have hcases := pipe_d_cases k e
  rw [pyLower_toNat]
  by_cases hup : 65 ≤ (stage2Char (stage1Char k e)).toNat ∧ (stage2Char (stage1Char k e)).toNat ≤ 90
  · rw [if_pos hup]
    cases k <;> simp only [Bool.false_eq_true, false_and, or_false, true_and] <;> omega
  · rw [if_neg hup]
    cases k
    · simp only [Bool.false_eq_true, false_and, or_false]
      rcases hcases with h' | h' | ⟨h', -, -, hd46⟩
      · omega
      · omega
      · have := hd46 rfl
        omega
    · simp only [true_and]
      omega

/-! ### C1 — the documented example path -/

/-- C1 counterexample: on the inputs of the claim the path builder does not
produce the claimed string `"us-east-1a.m5.large.linuxunix-amazon-vpc"`. -/
theorem C1_counterexample :
    build_path none "us-east-1a".data "m5.large".data "Linux/UNIX (Amazon VPC)".data ≠
      "us-east-1a.m5.large.linuxunix-amazon-vpc".data := by decide

/-- C1 amended: the four-stage pipeline turns the dot of the instance type
and the spaces of the product into underscores and the slash into a dash, so
the path built for prefix `None`, zone `us-east-1a`, instance type
`m5.large` and product `Linux/UNIX (Amazon VPC)` is
`"us-east-1a.m5_large.linux-unix_amazon_vpc"`. -/
theorem C1_amended :
    build_path none "us-east-1a".data "m5.large".data "Linux/UNIX (Amazon VPC)".data =
      "us-east-1a.m5_large.linux-unix_amazon_vpc".data := by decide

/-! ### C2 — character set of `sanatize_string` with `keep_dots=False` -/

/-- C2: with `keep_dots=False` every output character of the sanitizer is a
lowercase letter, `_`, `-` or a digit; in particular the output contains no
whitespace, no slash and no uppercase letter. -/
theorem C2_sanatize_false_charset (s : List Char) (c : Char)
    (h : c ∈ sanatize_string s false) :
    isPySpace c = false ∧ c ≠ '/' ∧
      ((97 ≤ c.toNat ∧ c.toNat ≤ 122) ∨ c.toNat = 95 ∨ c.toNat = 45 ∨
        (48 ≤ c.toNat ∧ c.toNat ≤ 57)) ∧
      ¬(65 ≤ c.toNat ∧ c.toNat ≤ 90) := by
  have hm := sanatize_mem h
  simp only [Bool.false_eq_true, false_and, or_false] at hm
  have h47 : '/'.toNat = 47 := rfl
  refine ⟨?_, ?_, hm, by omega⟩
  · rw [← Bool.not_eq_true, isPySpace_iff]
    omega
  · rw [Ne, char_eq_iff_toNat, h47]
    omega

/-- C2 witness: on the input `"A b"` the sanitizer emits the character `a`,
which satisfies all four properties. -/
theorem C2_witness :
    isPySpace 'a' = false ∧ 'a' ≠ '/' ∧
      ((97 ≤ 'a'.toNat ∧ 'a'.toNat ≤ 122) ∨ 'a'.toNat = 95 ∨ 'a'.toNat = 45 ∨
        (48 ≤ 'a'.toNat ∧ 'a'.toNat ≤ 57)) ∧
      ¬(65 ≤ 'a'.toNat ∧ 'a'.toNat ≤ 90) :=
  C2_sanatize_false_charset "A b".data 'a' (by decide)

/-! ### C10 — idempotence of the sanitizer -/

/-- Every character of a sanitized string passes through all four stages
unchanged. -/
theorem sanatize_char_fixed {s : List Char} {k : Bool} {c : Char}
    (hc : c ∈ sanatize_string s k) :
    stage1Char k c = c ∧ stage2Char c = c ∧ isAllowed c = true ∧ pyLower c = c := by
  have hm := sanatize_mem hc
  have hsp : isPySpace c = false := by
    rw [← Bool.not_eq_true, isPySpace_iff]
    rcases hm with h | h | h | h | ⟨-, h⟩ <;> omega
  refine ⟨?_, ?_, ?_, ?_⟩
  · cases k
    · rw [stage1Char_false, if_neg]
      simp only [Bool.false_eq_true, false_and, or_false] at hm
      simp only [Bool.or_eq_true, decide_eq_true_eq, not_or, hsp]
      exact ⟨by simp, by omega⟩
    · rw [stage1Char_true, if_neg]
      simp [hsp]
  · rw [stage2Char, if_neg]
    rcases hm with h | h | h | h | ⟨-, h⟩ <;> omega
  · rw [isAllowed_iff]
    rcases hm with h | h | h | h | ⟨-, h⟩ <;> omega
  · rw [pyLower, if_neg]
    rcases hm with h | h | h | h | ⟨-, h⟩ <;> omega

/-- C10: the sanitizer is idempotent for both values of `keep_dots`. -/
theorem C10_sanatize_idempotent (s : List Char) (k : Bool) :
    sanatize_string (sanatize_string s k) k = sanatize_string s k := by
  have h1 : (sanatize_string s k).map (stage1Char k) = sanatize_string s k := by
    conv_rhs => rw [← List.map_id (sanatize_string s k)]
    exact List.map_congr_left (fun a ha => (sanatize_char_fixed ha).1)
  have h2 : (sanatize_string s k).map stage2Char = sanatize_string s k := by
    conv_rhs => rw [← List.map_id (sanatize_string s k)]
    exact List.map_congr_left (fun a ha => (sanatize_char_fixed ha).2.1)
  have h3 : (sanatize_string s k).filter isAllowed = sanatize_string s k :=
    List.filter_eq_self.mpr (fun a ha => (sanatize_char_fixed ha).2.2.1)
  have h4 : (sanatize_string s k).map pyLower = sanatize_string s k := by
    conv_rhs => rw [← List.map_id (sanatize_string s k)]
    exact List.map_congr_left (fun a ha => (sanatize_char_fixed ha).2.2.2)
  show ((((sanatize_string s k).map (stage1Char k)).map stage2Char).filter
    isAllowed).map pyLower = sanatize_string s k
  rw [h1, h2, h3, h4]

/-! ### C3 — character-set invariant of produced metric paths -/

/-- Weak form of `sanatize_mem`: dots allowed regardless of `keep_dots`. -/
theorem sanatize_mem_weak {s : List Char} {k : Bool} {c : Char}
    (h : c ∈ sanatize_string s k) :
    (97 ≤ c.toNat ∧ c.toNat ≤ 122) ∨ c.toNat = 95 ∨ c.toNat = 45 ∨
      (48 ≤ c.toNat ∧ c.toNat ≤ 57) ∨ c.toNat = 46 := by
  have hm := sanatize_mem h
  rcases hm with h' | h' | h' | h' | ⟨-, h'⟩ <;> omega

/-- Every character of a built metric path is a lowercase letter, `_`, `-`,
a digit or a dot. -/
theorem build_path_mem {pfx : Option (List Char)} {z it pr : List Char} {c : Char}
    (h : c ∈ build_path pfx z it pr) :
    (97 ≤ c.toNat ∧ c.toNat ≤ 122) ∨ c.toNat = 95 ∨ c.toNat = 45 ∨
      (48 ≤ c.toNat ∧ c.toNat ≤ 57) ∨ c.toNat = 46 := by
  have hdot : '.'.toNat = 46 := rfl
  simp only [build_path, List.mem_append, List.mem_singleton] at h
  rcases h with ((((hp | hz) | hd) | hi) | hd) | hp2
  · cases pfx with
    | none => simp [pfxPart] at hp
    | some g =>
      simp only [pfxPart] at hp
      by_cases hg : g.isEmpty
      · rw [if_pos hg] at hp
        simp at hp
      · rw [if_neg hg] at hp
        rcases List.mem_append.mp hp with hm | hm
        · exact sanatize_mem_weak hm
        · rw [List.mem_singleton.mp hm]
          omega
  · exact sanatize_mem_weak hz
  · rw [hd]; omega
  · exact sanatize_mem_weak hi
  · rw [hd]; omega
  · exact sanatize_mem_weak hp2

/-- C3 counterexample: the transformer does produce a metric (for a record
with an empty zone and instance type and the price `0.5`) whose path
contains two consecutive dots — the claim's "no two consecutive dots"
conjunct fails on it. -/
theorem C3_counterexample :
    transform_item cfv none itemQuirk = .ok (metric_of_item cfv none itemQuirk) ∧
      hasConsecDots (metric_of_item cfv none itemQuirk).path = true := by
  constructor
  · rfl
  · decide

/-- C3 amended: every metric the transformer produces has a path consisting
only of lowercase letters, digits, `_`, `-` and `.`, with no uppercase
letter and no whitespace; consecutive dots can occur (exactly when a
sanitized dimension is empty, or the sanitized prefix contributes them),
which is the quirk the spec itself documents for empty segments. -/
theorem C3_amended (fv : List Char → PyFloat) (pfx : Option (List Char)) (it : RawItem)
    (m : Metric) (h : transform_item fv pfx it = .ok m) (c : Char) (hc : c ∈ m.path) :
    ((97 ≤ c.toNat ∧ c.toNat ≤ 122) ∨ c.toNat = 95 ∨ c.toNat = 45 ∨
      (48 ≤ c.toNat ∧ c.toNat ≤ 57) ∨ c.toNat = 46) ∧
      ¬(65 ≤ c.toNat ∧ c.toNat ≤ 90) ∧ isPySpace c = false := by
  have hpath : m.path = build_path pfx it.availabilityZone it.instanceType it.productDescription := by
    unfold transform_item at h
    by_cases hn : isPyFloatString it.spotPrice = true
    · rw [if_pos hn] at h
      injection h with h'
      rw [← h']
      rfl
    · rw [if_neg hn] at h
      simp at h
  rw [hpath] at hc
  have hm := build_path_mem hc
  refine ⟨hm, by omega, ?_⟩
  rw [← Bool.not_eq_true, isPySpace_iff]
  omega

/-- C3 witness: the amended theorem applies to a concrete record; the
character `u` of its path satisfies the invariant. -/
theorem C3_witness :
    ((97 ≤ 'u'.toNat ∧ 'u'.toNat ≤ 122) ∨ 'u'.toNat = 95 ∨ 'u'.toNat = 45 ∨
      (48 ≤ 'u'.toNat ∧ 'u'.toNat ≤ 57) ∨ 'u'.toNat = 46) ∧
      ¬(65 ≤ 'u'.toNat ∧ 'u'.toNat ≤ 90) ∧ isPySpace 'u' = false :=
  C3_amended cfv none
    { availabilityZone := "us-east-1a".data
      instanceType := "m5.large".data
      productDescription := "Linux/UNIX (Amazon VPC)".data
      timestamp := 1600000000
      spotPrice := "0.0345".data }
    (metric_of_item cfv none
      { availabilityZone := "us-east-1a".data
        instanceType := "m5.large".data
        productDescription := "Linux/UNIX (Amazon VPC)".data
        timestamp := 1600000000
        spotPrice := "0.0345".data })
    (by rfl) 'u' (by decide)

/-! ### C6 — dots survive and whitespace becomes `_` when `keep_dots=True` -/

theorem count_char_cons (a b : Char) (l : List Char) :
    (b :: l).count a = l.count a + (if b.toNat = a.toNat then 1 else 0) := by
  rw [List.count_cons]
  by_cases h : b.toNat = a.toNat
  · have hba : b = a := char_toNat_inj h
    simp [hba, h]
  · have hne : ¬b = a := fun hh => h (hh ▸ rfl)
    simp [hne, h]

theorem sanatize_cons (k : Bool) (c : Char) (t : List Char) :
    sanatize_string (c :: t) k =
      (if isAllowed (stage2Char (stage1Char k c)) then
        pyLower (stage2Char (stage1Char k c)) :: sanatize_string t k
      else sanatize_string t k) := by
  simp only [sanatize_string, List.map_cons, List.filter_cons]
  by_cases h : isAllowed (stage2Char (stage1Char k c)) = true
  · rw [if_pos h, if_pos h, List.map_cons]
  · rw [if_neg h, if_neg h]

/-- With `keep_dots=True`, the two rewriting stages map a whitespace
character to `_`, a slash to `-`, and leave every other character alone. -/
theorem pipe_true_char (c : Char) :
    (isPySpace c = true ∧ stage2Char (stage1Char true c) = '_') ∨
      (isPySpace c = false ∧ c.toNat = 47 ∧ stage2Char (stage1Char true c) = '-') ∨
      (isPySpace c = false ∧ c.toNat ≠ 47 ∧ stage2Char (stage1Char true c) = c) := by
  by_cases hsp : isPySpace c = true
  · left
    refine ⟨hsp, ?_⟩
    rw [stage1Char_true, if_pos hsp]
    decide
  · have hsp' : isPySpace c = false := by simpa using hsp
    rw [stage1Char_true, if_neg (by simp [hsp'])]
    by_cases h47 : c.toNat = 47
    · right; left
      refine ⟨hsp', h47, ?_⟩
      rw [stage2Char, if_pos h47]
    · right; right
      refine ⟨hsp', h47, ?_⟩
      rw [stage2Char, if_neg h47]

/-- C6: sanitizing with `keep_dots=True` preserves the number of literal
dots, and turns exactly the whitespace characters into additional
underscores (every other character either keeps its identity for these two
counts or is dropped by the strip stage). -/
theorem C6_sanatize_true_counts (s : List Char) :
    (sanatize_string s true).count '.' = s.count '.' ∧
      (sanatize_string s true).count '_' = s.count '_' + s.countP isPySpace := by
  have h46 : '.'.toNat = 46 := rfl
  have h95 : '_'.toNat = 95 := rfl
  have h45 : '-'.toNat = 45 := rfl
  induction s with
  | nil => exact ⟨rfl, rfl⟩
  | cons c t ih =>
    have hI1 := ih.1
    have hI2 := ih.2
    rw [sanatize_cons]
    rcases pipe_true_char c with ⟨hsp, hd⟩ | ⟨hsp, h47, hd⟩ | ⟨hsp, h47, hd⟩
    · rw [hd, if_pos (by decide : isAllowed '_' = true),
        show pyLower '_' = '_' from by decide]
      have hnum := isPySpace_iff.mp hsp
      constructor
      · rw [count_char_cons, count_char_cons]
        split_ifs <;> omega
      · rw [count_char_cons, count_char_cons, List.countP_cons, if_pos hsp]
        split_ifs <;> omega
    · rw [hd, if_pos (by decide : isAllowed '-' = true),
        show pyLower '-' = '-' from by decide]
      have hsp2 : ¬isPySpace c = true := by simp [hsp]
      constructor
      · rw [count_char_cons, count_char_cons]
        split_ifs <;> omega
      · rw [count_char_cons, count_char_cons, List.countP_cons, if_neg hsp2]
        split_ifs <;> omega
    · have hspn : ¬isPySpace c = true := by simp [hsp]
      have hspnum : ¬(c.toNat = 32 ∨ c.toNat = 9 ∨ c.toNat = 10 ∨ c.toNat = 11 ∨
          c.toNat = 12 ∨ c.toNat = 13 ∨ (28 ≤ c.toNat ∧ c.toNat ≤ 31) ∨ c.toNat = 133 ∨
          c.toNat = 160 ∨ c.toNat = 5760 ∨ (8192 ≤ c.toNat ∧ c.toNat ≤ 8202) ∨
          c.toNat = 8232 ∨ c.toNat = 8233 ∨ c.toNat = 8239 ∨ c.toNat = 8287 ∨
          c.toNat = 12288) := fun hp => hspn (isPySpace_iff.mpr hp)
      rw [hd]
      by_cases hall : isAllowed c = true
      · rw [if_pos hall]
        by_cases hup : 65 ≤ c.toNat ∧ c.toNat ≤ 90
        · have hpl : (pyLower c).toNat = c.toNat + 32 := by rw [pyLower_toNat, if_pos hup]
          constructor
          · rw [count_char_cons, count_char_cons]
            split_ifs <;> omega
          · rw [count_char_cons, count_char_cons, List.countP_cons, if_neg hspn]
            split_ifs <;> omega
        · have hpl : (pyLower c).toNat = c.toNat := by rw [pyLower_toNat, if_neg hup]
          constructor
          · rw [count_char_cons, count_char_cons]
            split_ifs <;> omega
          · rw [count_char_cons, count_char_cons, List.countP_cons, if_neg hspn]
            split_ifs <;> omega
      · have hna : ¬((65 ≤ c.toNat ∧ c.toNat ≤ 90) ∨ (97 ≤ c.toNat ∧ c.toNat ≤ 122) ∨
            c.toNat = 95 ∨ c.toNat = 45 ∨ (48 ≤ c.toNat ∧ c.toNat ≤ 57) ∨ c.toNat = 46) :=
          fun hp => hall (isAllowed_iff.mpr hp)
        rw [if_neg hall]
        constructor
        · rw [count_char_cons]
          split_ifs <;> omega
        · rw [count_char_cons, List.countP_cons, if_neg hspn]
          split_ifs <;> omega

/-! ### C7 — behaviour on a non-numeric spot price -/

/-- C7 counterexample: for a record whose price is `"abc"` the transform
phase does abort the process with exit status 1, but no message is emitted
through the logging facility at error severity — the `ValueError` escapes
uncaught, so the claim's "logged at error severity" conjunct is false. -/
theorem C7_counterexample :
    transform_outcome cfv none
        [{ availabilityZone := [], instanceType := [], productDescription := [],
           timestamp := 0, spotPrice := "abc".data }] = .fatal 1 false ∧
      ¬transform_outcome cfv none
          [{ availabilityZone := [], instanceType := [], productDescription := [],
             timestamp := 0, spotPrice := "abc".data }] = .fatal 1 true := by
  constructor
  · rfl
  · decide

/-- C7 amended: whenever some record's spot price fails the float grammar,
the transform phase ends the process with exit status 1 (the `ValueError`
is neither swallowed nor retried), but nothing is logged at error severity
on the way out — the exception propagates uncaught. -/
theorem C7_amended (fv : List Char → PyFloat) (pfx : Option (List Char))
    (items : List RawItem) (h : ∃ it ∈ items, isPyFloatString it.spotPrice = false) :
    transform_outcome fv pfx items = .fatal 1 false := by
  have herr : build_metrics fv pfx items = .error () := by
    induction items with
    | nil => simp at h
    | cons a t ih =>
      rcases h with ⟨it, hmem, hbad⟩
      rcases List.mem_cons.mp hmem with rfl | hmem'
      · simp only [build_metrics, transform_item, hbad, Bool.false_eq_true, if_false]
        rfl
      · by_cases hh : isPyFloatString a.spotPrice = true
        · have hrec := ih ⟨it, hmem', hbad⟩
          simp only [build_metrics, transform_item, hh, if_true, hrec]
          rfl
        · have hf : isPyFloatString a.spotPrice = false := by simpa using hh
          simp only [build_metrics, transform_item, hf, Bool.false_eq_true, if_false]
          rfl
  rw [transform_outcome, herr]

/-- C7 witness: the amended theorem applies to a concrete batch with the
non-numeric price `"n/a"`. -/
theorem C7_witness :
    transform_outcome cfv none
        [{ availabilityZone := "a".data, instanceType := "b".data,
           productDescription := "c".data, timestamp := 5, spotPrice := "n/a".data }] =
      .fatal 1 false :=
  C7_amended cfv none _
    ⟨{ availabilityZone := "a".data, instanceType := "b".data,
       productDescription := "c".data, timestamp := 5, spotPrice := "n/a".data },
      by simp, by decide⟩

/-! ### C9 — pagination concatenates pages in order, transform preserves order -/

/-- When every response before the last carries a truthy continuation token,
the pagination loop returns the concatenation of all pages in page order. -/
theorem collect_items_join (first : SpotResponse) (rest : List SpotResponse)
    (htok : ∀ r ∈ (first :: rest).dropLast, truthyToken r.nextToken = true) :
    collect_items first rest = ((first :: rest).map SpotResponse.history).flatten := by
  induction rest generalizing first with
  | nil => simp [collect_items]
  | cons r2 rs ih =>
    have hfirst : truthyToken first.nextToken = true := by
      apply htok
      rw [List.dropLast_cons₂]
      exact List.mem_cons_self _ _
    have htok2 : ∀ r ∈ (r2 :: rs).dropLast, truthyToken r.nextToken = true := by
      intro r hr
      apply htok
      rw [List.dropLast_cons₂]
      exact List.mem_cons_of_mem _ hr
    show (if truthyToken first.nextToken then first.history ++ collect_items r2 rs
      else first.history) = _
    rw [if_pos hfirst, ih r2 htok2]
    simp

/-- When every record parses, the transform loop succeeds and maps each
record in place: the i-th produced sample comes from the i-th record. -/
theorem build_metrics_all_ok (fv : List Char → PyFloat) (pfx : Option (List Char))
    (items : List RawItem) (h : ∀ it ∈ items, isPyFloatString it.spotPrice = true) :
    build_metrics fv pfx items = .ok (items.map (metric_of_item fv pfx)) := by
  induction items with
  | nil => rfl
  | cons a t ih =>
    have ha := h a (List.mem_cons_self _ _)
    have ht := ih (fun it hit => h it (List.mem_cons_of_mem _ hit))
    simp only [build_metrics, transform_item, ha, if_true, ht, List.map_cons]
    rfl

/-- C9: for a response sequence whose continuation tokens link all pages
(truthy on every page but the last, absent or empty on the last), the
fetcher returns the concatenation of the pages' records in page order, and
— when every price parses — the metrics batch is the in-order image of
those records, sample `i` coming from record `i`. -/
theorem C9_pagination_order (first : SpotResponse) (rest : List SpotResponse)
    (fv : List Char → PyFloat) (pfx : Option (List Char))
    (htok : ∀ r ∈ (first :: rest).dropLast, truthyToken r.nextToken = true)
    (_hlast : truthyToken (((first :: rest).getLast (List.cons_ne_nil first rest)).nextToken) = false)
    (hnum : ∀ it ∈ collect_items first rest, isPyFloatString it.spotPrice = true) :
    collect_items first rest = ((first :: rest).map SpotResponse.history).flatten ∧
      build_metrics fv pfx (collect_items first rest) =
        .ok ((collect_items first rest).map (metric_of_item fv pfx)) :=
  ⟨collect_items_join first rest htok, build_metrics_all_ok fv pfx _ hnum⟩

/-- C9 witness: a concrete two-page response sequence, linked by the token
`"t"`, with one record per page. -/
theorem C9_witness :
    collect_items respA [respB] = (([respA, respB]).map SpotResponse.history).flatten ∧
      build_metrics cfv none (collect_items respA [respB]) =
        .ok ((collect_items respA [respB]).map (metric_of_item cfv none)) :=
  C9_pagination_order respA [respB] cfv none (by decide) (by decide) (by decide)

/-! ### C8 — the empty fetch cycle and the empty batch -/

/-- C8: when every page is empty the fetch yields no records and the
transform yields the empty batch; pickling the empty batch succeeds,
producing the 6-byte protocol-2 empty list, framed by the header `[0,0,0,6]`
whose big-endian value is that payload's length; and the conforming reader
decodes the payload back to the empty list. -/
theorem C8_empty_batch (first : SpotResponse) (rest : List SpotResponse)
    (fv : List Char → PyFloat) (pfx : Option (List Char))
    (h1 : first.history = []) (h2 : ∀ r ∈ rest, r.history = []) :
    collect_items first rest = [] ∧
      build_metrics fv pfx (collect_items first rest) = .ok [] ∧
      pickle_dumps [] = some [0x80, 2, 0x5D, 0x71, 0, 0x2E] ∧
      graphite_message [] = some ([0, 0, 0, 6] ++ [0x80, 2, 0x5D, 0x71, 0, 0x2E]) ∧
      pickle_loads [0x80, 2, 0x5D, 0x71, 0, 0x2E] = some [] := by
  have hc : ∀ (rs : List SpotResponse) (r : SpotResponse), r.history = [] →
      (∀ x ∈ rs, x.history = []) → collect_items r rs = [] := by
    intro rs
    induction rs with
    | nil =>
      intro r hr _
      simpa [collect_items] using hr
    | cons r2 rs2 ih =>
      intro r hr hall
      show (if truthyToken r.nextToken then r.history ++ collect_items r2 rs2
        else r.history) = []
      by_cases ht : truthyToken r.nextToken = true
      · rw [if_pos ht, hr, ih r2 (hall r2 (List.mem_cons_self _ _))
          (fun x hx => hall x (List.mem_cons_of_mem _ hx))]
        rfl
      · rw [if_neg ht, hr]
  have hcoll := hc rest first h1 h2
  refine ⟨hcoll, ?_, rfl, rfl, rfl⟩
  rw [hcoll]
  rfl

/-- C8 witness: a single empty response page. -/
theorem C8_witness :
    collect_items ({ history := [], nextToken := none } : SpotResponse) [] = [] ∧
      build_metrics cfv none
        (collect_items ({ history := [], nextToken := none } : SpotResponse) []) = .ok [] ∧
      pickle_dumps [] = some [0x80, 2, 0x5D, 0x71, 0, 0x2E] ∧
      graphite_message [] = some ([0, 0, 0, 6] ++ [0x80, 2, 0x5D, 0x71, 0, 0x2E]) ∧
      pickle_loads [0x80, 2, 0x5D, 0x71, 0, 0x2E] = some [] :=
  C8_empty_batch { history := [], nextToken := none } [] cfv none rfl (by simp)

/-! ### Byte-level lemmas for the wire format -/

theorem toLE_length (k n : Nat) : (toLE k n).length = k := by
  induction k generalizing n with
  | zero => rfl
  | succ k ih => simp [toLE, ih]

theorem toBE_length (k n : Nat) : (toBE k n).length = k := by
  simp [toBE, toLE_length]

theorem fromLE_toLE (k n : Nat) : fromLE (toLE k n) = n % 256 ^ k := by
  induction k generalizing n with
  | zero => simp [toLE, fromLE, Nat.mod_one]
  | succ k ih =>
    rw [toLE, fromLE, ih]
    rw [show (256 : Nat) ^ (k + 1) = 256 * 256 ^ k from by ring]
    have hd : n % (256 * 256 ^ k) / 256 = n / 256 % 256 ^ k :=
      Nat.mod_mul_right_div_self n 256 (256 ^ k)
    have hm : n % (256 * 256 ^ k) % 256 = n % 256 := Nat.mod_mod_of_dvd n ⟨256 ^ k, rfl⟩
    omega

theorem fromLE_toLE_of_lt {k n : Nat} (h : n < 256 ^ k) : fromLE (toLE k n) = n := by
  rw [fromLE_toLE, Nat.mod_eq_of_lt h]

theorem fromBE_toBE {k n : Nat} (h : n < 256 ^ k) : fromBE (toBE k n) = n := by
  rw [fromBE, toBE, List.reverse_reverse, fromLE_toLE_of_lt h]

theorem readBytes_exact {k : Nat} {l r : List Nat} (h : l.length = k) :
    readBytes k (l ++ r) = some (l, r) := by
  rw [readBytes, if_pos (by simp [List.length_append]; omega)]
  rw [List.take_left' h, List.drop_left' h]

theorem expectByte_cons (b : Nat) (r : List Nat) : expectByte b (b :: r) = some r := by
  rw [expectByte, if_pos rfl]

theorem toLE_succ_concat (k n : Nat) :
    toLE (k + 1) n = toLE k (n % 256 ^ k) ++ [n / 256 ^ k % 256] := by
  induction k generalizing n with
  | zero => simp [toLE, Nat.mod_one]
  | succ k ih =>
    rw [toLE, ih (n / 256)]
    have h1 : n % 256 ^ (k + 1) % 256 = n % 256 := Nat.mod_mod_of_dvd n ⟨256 ^ k, by ring⟩
    have h2 : n % 256 ^ (k + 1) / 256 = n / 256 % 256 ^ k := by
      rw [show (256 : Nat) ^ (k + 1) = 256 * 256 ^ k from by ring]
      exact Nat.mod_mul_right_div_self n 256 (256 ^ k)
    have h3 : n / 256 / 256 ^ k = n / 256 ^ (k + 1) := by
      rw [Nat.div_div_eq_div_mul]
      congr 1
      ring
    rw [toLE, h1, h2, h3]
    simp

theorem parsePut_putOp {idx : Nat} {pb r : List Nat} (h : putOp idx = some pb) :
    parsePut (pb ++ r) = some r := by
  rw [putOp] at h
  by_cases h1 : idx < 256
  · rw [if_pos h1] at h
    injection h with h'
    rw [← h']
    rfl
  · rw [if_neg h1] at h
    by_cases h2 : idx < 2 ^ 32
    · rw [if_pos h2] at h
      injection h with h'
      rw [← h']
      rw [show toLE 4 idx = [idx % 256, idx / 256 % 256, idx / 256 / 256 % 256,
        idx / 256 / 256 / 256 % 256] from rfl]
      rfl
    · rw [if_neg h2] at h
      exact absurd h (by simp)


theorem contByte_true {b : Nat} (h1 : 0x80 ≤ b) (h2 : b < 0xC0) : contByte b = true := by
  simp only [contByte, Bool.and_eq_true, decide_eq_true_eq]
  omega

theorem utf8Char_length_pos (c : Char) : 1 ≤ (utf8Char c).length := by
  simp only [utf8Char]
  split_ifs <;> simp

theorem utf8Char_ne_nil (c : Char) : utf8Char c ≠ [] := by
  intro h
  have := utf8Char_length_pos c
  rw [h] at this
  simp at this

theorem utf8DecodeOne_cons (b : Nat) (bs : List Nat) :
    utf8DecodeOne (b :: bs) =
      (if b < 0x80 then some (Char.ofNat b, bs)
       else if b < 0xC0 then none
       else if b < 0xE0 then twoCont b bs
       else if b < 0xF0 then threeCont b bs
       else if b < 0xF8 then fourCont b bs
       else none) := rfl

theorem twoCont_cons (b b2 : Nat) (rest : List Nat) :
    twoCont b (b2 :: rest) =
      (if contByte b2 then some (Char.ofNat ((b - 0xC0) * 0x40 + (b2 - 0x80)), rest)
       else none) := rfl

theorem threeCont_cons (b b2 b3 : Nat) (rest : List Nat) :
    threeCont b (b2 :: b3 :: rest) =
      (if contByte b2 && contByte b3 then
        some (Char.ofNat ((b - 0xE0) * 0x1000 + (b2 - 0x80) * 0x40 + (b3 - 0x80)), rest)
       else none) := rfl

theorem fourCont_cons (b b2 b3 b4 : Nat) (rest : List Nat) :
    fourCont b (b2 :: b3 :: b4 :: rest) =
      (if contByte b2 && contByte b3 && contByte b4 then
        some (Char.ofNat ((b - 0xF0) * 0x40000 + (b2 - 0x80) * 0x1000 +
          (b3 - 0x80) * 0x40 + (b4 - 0x80)), rest)
       else none) := rfl

theorem utf8DecodeOne_char (c : Char) (bs : List Nat) :
    utf8DecodeOne (utf8Char c ++ bs) = some (c, bs) := by
  have hlt := char_toNat_lt c
  by_cases h1 : c.toNat < 0x80
  · have he : utf8Char c = [c.toNat] := by
      simp only [utf8Char]
      rw [if_pos h1]
    rw [he, List.cons_append, List.nil_append, utf8DecodeOne_cons, if_pos h1,
      Char.ofNat_toNat]
  · by_cases h2 : c.toNat < 0x800
    · have he : utf8Char c = [0xC0 + c.toNat / 0x40, 0x80 + c.toNat % 0x40] := by
        simp only [utf8Char]
        rw [if_neg h1, if_pos h2]
      rw [he, List.cons_append, List.cons_append, List.nil_append]
      rw [utf8DecodeOne_cons, if_neg (by omega), if_neg (by omega), if_pos (by omega)]
      rw [twoCont_cons, if_pos (contByte_true (by omega) (by omega))]
      rw [show (0xC0 + c.toNat / 0x40 - 0xC0) * 0x40 + (0x80 + c.toNat % 0x40 - 0x80) =
        c.toNat from by omega]
      rw [Char.ofNat_toNat]
    · by_cases h3 : c.toNat < 0x10000
      · have he : utf8Char c = [0xE0 + c.toNat / 0x1000, 0x80 + c.toNat / 0x40 % 0x40,
            0x80 + c.toNat % 0x40] := by
          simp only [utf8Char]
          rw [if_neg h1, if_neg h2, if_pos h3]
        rw [he, List.cons_append, List.cons_append, List.cons_append, List.nil_append]
        rw [utf8DecodeOne_cons, if_neg (by omega), if_neg (by omega), if_neg (by omega),
          if_pos (by omega)]
        rw [threeCont_cons, if_pos (by
          rw [Bool.and_eq_true]
          exact ⟨contByte_true (by omega) (by omega), contByte_true (by omega) (by omega)⟩)]
        rw [show (0xE0 + c.toNat / 0x1000 - 0xE0) * 0x1000 +
            (0x80 + c.toNat / 0x40 % 0x40 - 0x80) * 0x40 +
            (0x80 + c.toNat % 0x40 - 0x80) = c.toNat from by omega]
        rw [Char.ofNat_toNat]
      · have he : utf8Char c = [0xF0 + c.toNat / 0x40000, 0x80 + c.toNat / 0x1000 % 0x40,
            0x80 + c.toNat / 0x40 % 0x40, 0x80 + c.toNat % 0x40] := by
          simp only [utf8Char]
          rw [if_neg h1, if_neg h2, if_neg h3]
        rw [he, List.cons_append, List.cons_append, List.cons_append, List.cons_append,
          List.nil_append]
        rw [utf8DecodeOne_cons, if_neg (by omega), if_neg (by omega), if_neg (by omega),
          if_neg (by omega), if_pos (by omega)]
        rw [fourCont_cons, if_pos (by
          rw [Bool.and_eq_true, Bool.and_eq_true]
          exact ⟨⟨contByte_true (by omega) (by omega), contByte_true (by omega) (by omega)⟩,
            contByte_true (by omega) (by omega)⟩)]
        rw [show (0xF0 + c.toNat / 0x40000 - 0xF0) * 0x40000 +
            (0x80 + c.toNat / 0x1000 % 0x40 - 0x80) * 0x1000 +
            (0x80 + c.toNat / 0x40 % 0x40 - 0x80) * 0x40 +
            (0x80 + c.toNat % 0x40 - 0x80) = c.toNat from by omega]
        rw [Char.ofNat_toNat]

theorem utf8DecodeAux_encode (s : List Char) (fuel : Nat)
    (hf : (utf8Encode s).length ≤ fuel) :
    utf8DecodeAux fuel (utf8Encode s) = some s := by
  induction s generalizing fuel with
  | nil =>
    rw [show utf8Encode [] = [] from rfl]
    cases fuel <;> rfl
  | cons c t ih =>
    have henc : utf8Encode (c :: t) = utf8Char c ++ utf8Encode t := by
      simp [utf8Encode]
    obtain ⟨b, tl, hbt⟩ := List.exists_cons_of_ne_nil
      (show utf8Char c ++ utf8Encode t ≠ [] by
        intro hnil
        exact utf8Char_ne_nil c (List.append_eq_nil.mp hnil).1)
    have hchar := utf8Char_length_pos c
    have hlen : (utf8Char c ++ utf8Encode t).length ≤ fuel := by
      rw [henc] at hf
      exact hf
    cases fuel with
    | zero =>
      exfalso
      rw [List.length_append] at hlen
      omega
    | succ f =>
      rw [henc, hbt]
      rw [show utf8DecodeAux (f + 1) (b :: tl) = (do
        let (c2, r) ← utf8DecodeOne (b :: tl)
        let cs ← utf8DecodeAux f r
        some (c2 :: cs)) from rfl]
      rw [← hbt, utf8DecodeOne_char]
      have hrec : utf8DecodeAux f (utf8Encode t) = some t := by
        apply ih
        rw [List.length_append] at hlen
        omega
      show (do
        let cs ← utf8DecodeAux f (utf8Encode t)
        some (c :: cs)) = some (c :: t)
      rw [hrec]
      rfl

theorem utf8Decode_encode (s : List Char) : utf8Decode (utf8Encode s) = some s :=
  utf8DecodeAux_encode s (utf8Encode s).length (le_refl _)

theorem parseStr_block (s : List Char) (r : List Nat)
    (hlen : (utf8Encode s).length < 2 ^ 32) :
    parseStr (0x58 :: (toLE 4 (utf8Encode s).length ++ (utf8Encode s ++ r))) = some (s, r) := by
  rw [parseStr, expectByte_cons]
  simp only [Option.bind_eq_bind, Option.some_bind]
  rw [readBytes_exact (toLE_length 4 _)]
  simp only [Option.some_bind]
  rw [fromLE_toLE_of_lt (by
    rw [show (256 : Nat) ^ 4 = 2 ^ 32 from by norm_num]
    exact hlen)]
  rw [readBytes_exact rfl]
  simp only [Option.some_bind]
  rw [utf8Decode_encode]
  simp only [Option.some_bind]

theorem getLast?_toLE (m x : Nat) : (toLE (m + 1) x).getLast? = some (x / 256 ^ m % 256) := by
  rw [toLE_succ_concat, List.getLast?_concat]

theorem decode_long_some {bs : List Nat} {b : Nat} (h : bs.getLast? = some b) :
    decode_long bs =
      (if 0x80 ≤ b then (fromLE bs : Int) - 2 ^ (8 * bs.length) else (fromLE bs : Int)) := by
  rw [decode_long, h]

theorem pow256_eq (k : Nat) : (256 : Nat) ^ k = 2 ^ (8 * k) := by
  rw [show (256 : Nat) = 2 ^ 8 from by norm_num, ← pow_mul]

theorem trimSign_nonneg {i : Int} (h : ¬i < 0) (r : List Nat) : trimSign i r = r := by
  rw [trimSign, if_neg h]

theorem trimSign_neg_cons2 {i : Int} (h : i < 0) {r : List Nat} {b1 b2 : Nat} {w : List Nat}
    (hrev : r.reverse = b1 :: b2 :: w) :
    trimSign i r = (if b1 = 0xFF ∧ 0x80 ≤ b2 then r.dropLast else r) := by
  rw [trimSign, if_pos h, hrev]

theorem trimSign_neg_one {i : Int} (h : i < 0) {r : List Nat} {b1 : Nat}
    (hrev : r.reverse = [b1]) : trimSign i r = r := by
  rw [trimSign, if_pos h, hrev]

theorem cast_pow256 (k : Nat) : ((256 ^ k : Nat) : Int) = 2 ^ (8 * k) := by
  push_cast
  rw [show (256 : Int) = 2 ^ 8 from by norm_num, ← pow_mul]

theorem decode_long_encode_long (i : Int) : decode_long (encode_long i) = i := by
  by_cases h0 : i = 0
  · rw [h0]
    rfl
  rw [encode_long, if_neg h0]
  set nb := Nat.size i.natAbs / 8 + 1 with hnbdef
  have hsz := Nat.lt_size_self i.natAbs
  have hszle : Nat.size i.natAbs ≤ 8 * nb - 1 := by omega
  have habs : i.natAbs < 2 ^ (8 * nb - 1) :=
    lt_of_lt_of_le hsz (Nat.pow_le_pow_right (by norm_num) hszle)
  obtain ⟨m, hm⟩ : ∃ m, nb = m + 1 := ⟨Nat.size i.natAbs / 8, hnbdef⟩
  have hQpos : 0 < 256 ^ m := Nat.pos_pow_of_pos m (by norm_num)
  have hpow : 2 ^ (8 * nb - 1) = 128 * 256 ^ m := by
    rw [show 8 * nb - 1 = 8 * m + 7 from by omega, pow_add, ← pow256_eq]
    ring
  have habs' : i.natAbs < 128 * 256 ^ m := by rw [hpow] at habs; exact habs
  have hQQ : (256 : Nat) ^ (m + 1) = 256 * 256 ^ m := by ring
  have hcastP : ((2 : Int) ^ (8 * nb)) = ((256 ^ (m + 1) : Nat) : Int) := by
    push_cast
    rw [show ((256 : Int) ^ (m + 1)) = (2 : Int) ^ (8 * (m + 1)) from by
      rw [show (256 : Int) = 2 ^ 8 from by norm_num, ← pow_mul], hm]
  have habsInt : (i.natAbs : Int) < ((128 * 256 ^ m : Nat) : Int) := by exact_mod_cast habs'
  by_cases hneg : i < 0
  · -- negative integer
    have hmod : i % (2 : Int) ^ (8 * nb) = i + ((256 ^ (m + 1) : Nat) : Int) := by
      rw [hcastP]
      have hlow : (0 : Int) ≤ i + ((256 ^ (m + 1) : Nat) : Int) := by omega
      have hhigh : i + ((256 ^ (m + 1) : Nat) : Int) < ((256 ^ (m + 1) : Nat) : Int) := by
        omega
      calc i % ((256 ^ (m + 1) : Nat) : Int)
          = (i + ((256 ^ (m + 1) : Nat) : Int) * 1) % ((256 ^ (m + 1) : Nat) : Int) := by
            rw [Int.add_mul_emod_self_left]
        _ = i + ((256 ^ (m + 1) : Nat) : Int) := by
            rw [mul_one]
            exact Int.emod_eq_of_lt hlow hhigh
    rw [hmod]
    set x := (i + ((256 ^ (m + 1) : Nat) : Int)).toNat with hxdef
    have hxInt : (x : Int) = i + ((256 ^ (m + 1) : Nat) : Int) := by
      rw [hxdef]
      apply Int.toNat_of_nonneg
      omega
    have hxbounds : 128 * 256 ^ m ≤ x ∧ x < 256 * 256 ^ m := by
      constructor <;> omega
    have hxQ : x / 256 ^ m < 256 := by
      rw [Nat.div_lt_iff_lt_mul hQpos]
      omega
    have hxQge : 128 ≤ x / 256 ^ m := by
      rw [Nat.le_div_iff_mul_le hQpos]
      omega
    have htopmod : x / 256 ^ m % 256 = x / 256 ^ m := Nat.mod_eq_of_lt hxQ
    rw [hm]
    cases m with
    | zero =>
      -- single byte, the reverse is a singleton: no trim
      have hrev : (toLE 1 x).reverse = [x % 256] := by
        rw [show toLE 1 x = [x % 256] from rfl]
        rfl
      rw [trimSign_neg_one hneg hrev]
      rw [decode_long_some (getLast?_toLE 0 x)]
      simp only [pow_zero, Nat.div_one] at htopmod hxQge ⊢
      rw [if_pos (by omega)]
      rw [fromLE_toLE_of_lt (by simpa using hxbounds.2)]
      rw [toLE_length]
      rw [hxInt]
      have : ((256 ^ (0 + 1) : Nat) : Int) = (2 : Int) ^ (8 * 1) := by norm_num
      rw [this]
      ring
    | succ m' =>
      -- at least two bytes
      have hQQ' : (256 : Nat) ^ (m' + 1) = 256 * 256 ^ m' := by ring
      have hQpos' : 0 < 256 ^ m' := Nat.pos_pow_of_pos m' (by norm_num)
      set v := x % 256 ^ (m' + 1) with hvdef
      set t := x / 256 ^ (m' + 1) with htdef
      have hxsplit : x = 256 ^ (m' + 1) * t + v := (Nat.div_add_mod x (256 ^ (m' + 1))).symm
      have hvlt : v < 256 ^ (m' + 1) := Nat.mod_lt x (Nat.pos_pow_of_pos _ (by norm_num))
      set s := v / 256 ^ m' % 256 with hsdef
      have hrev : (toLE (m' + 1 + 1) x).reverse =
          (x / 256 ^ (m' + 1) % 256) :: (toLE (m' + 1) (x % 256 ^ (m' + 1))).reverse := by
        rw [toLE_succ_concat (m' + 1) x]
        rw [List.reverse_append]
        rfl
      have hrev2 : (toLE (m' + 1) (x % 256 ^ (m' + 1))).reverse =
          s :: (toLE m' (v % 256 ^ m')).reverse := by
        rw [← hvdef, toLE_succ_concat m' v, List.reverse_append, ← hsdef]
        rfl
      have htmod : x / 256 ^ (m' + 1) % 256 = t := by
        rw [← htdef]
        exact Nat.mod_eq_of_lt (by
          rw [← htopmod]
          exact Nat.mod_lt _ (by norm_num))
      have hrevfull : (toLE (m' + 1 + 1) x).reverse =
          (x / 256 ^ (m' + 1) % 256) :: s :: (toLE m' (v % 256 ^ m')).reverse := by
        rw [hrev, hrev2]
      rw [trimSign_neg_cons2 hneg hrevfull]
      have hP1 : (256 : Nat) ^ (m' + 1 + 1) = 256 * 256 ^ (m' + 1) := by ring
      by_cases htrim : x / 256 ^ (m' + 1) % 256 = 0xFF ∧ 0x80 ≤ s
      · rw [if_pos htrim]
        have hdrop : (toLE (m' + 1 + 1) x).dropLast = toLE (m' + 1) (x % 256 ^ (m' + 1)) := by
          rw [toLE_succ_concat (m' + 1) x]
          exact List.dropLast_concat
        rw [hdrop]
        rw [decode_long_some (getLast?_toLE m' (x % 256 ^ (m' + 1)))]
        rw [if_pos (by rw [← hvdef, ← hsdef]; exact htrim.2)]
        rw [fromLE_toLE_of_lt (by rw [← hvdef]; exact hvlt)]
        rw [toLE_length]
        have ht255 : t = 0xFF := by rw [← htmod]; exact htrim.1
        have hc1 := cast_pow256 (m' + 1)
        have hc2 := cast_pow256 (m' + 1 + 1)
        rw [← hvdef, ← hc1]
        rw [ht255] at hxsplit
        omega
      · rw [if_neg htrim]
        rw [decode_long_some (getLast?_toLE (m' + 1) x)]
        rw [if_pos (by rw [htmod, htdef]; exact hxQge)]
        rw [fromLE_toLE_of_lt (by omega : x < 256 ^ (m' + 1 + 1))]
        rw [toLE_length]
        have hc2 := cast_pow256 (m' + 1 + 1)
        rw [← hc2]
        omega
  · -- non-negative integer
    have hipos : 0 < i := by omega
    have hmod : i % (2 : Int) ^ (8 * nb) = i := by
      rw [hcastP]
      exact Int.emod_eq_of_lt (by omega) (by omega)
    rw [hmod, trimSign_nonneg hneg, hm]
    rw [decode_long_some (getLast?_toLE m i.toNat)]
    have hxNat : i.toNat < 128 * 256 ^ m := by omega
    have hdivlt : i.toNat / 256 ^ m < 128 := by
      rw [Nat.div_lt_iff_lt_mul hQpos]
      omega
    rw [if_neg (by
      rw [Nat.mod_eq_of_lt (lt_trans hdivlt (by norm_num))]
      omega)]
    rw [fromLE_toLE_of_lt (by omega : i.toNat < 256 ^ (m + 1))]
    exact Int.toNat_of_nonneg (by omega)

theorem parseInt_saveInt {i : Int} {b : List Nat} (h : saveInt i = some b) (r : List Nat) :
    parseInt (b ++ r) = some (i, r) := by
  rw [saveInt] at h
  by_cases h1 : 0 ≤ i ∧ i ≤ 0xFF
  · rw [if_pos h1] at h
    injection h with h'
    rw [← h']
    rw [show ([0x4B, i.toNat] ++ r) = 0x4B :: i.toNat :: r from rfl]
    rw [show parseInt (0x4B :: i.toNat :: r) = some ((i.toNat : Int), r) from rfl]
    simp only [Option.some.injEq, Prod.mk.injEq]
    exact ⟨Int.toNat_of_nonneg h1.1, trivial⟩
  rw [if_neg h1] at h
  by_cases h2 : 0 ≤ i ∧ i ≤ 0xFFFF
  · rw [if_pos h2] at h
    injection h with h'
    rw [← h']
    rw [show ((0x4D :: toLE 2 i.toNat) ++ r) =
      0x4D :: i.toNat % 256 :: i.toNat / 256 % 256 :: r from rfl]
    rw [show parseInt (0x4D :: i.toNat % 256 :: i.toNat / 256 % 256 :: r) =
      some (((i.toNat % 256 + 256 * (i.toNat / 256 % 256) : Nat) : Int), r) from rfl]
    simp only [Option.some.injEq, Prod.mk.injEq]
    refine ⟨?_, trivial⟩
    omega
  rw [if_neg h2] at h
  by_cases h3 : -0x80000000 ≤ i ∧ i ≤ 0x7FFFFFFF
  · rw [if_pos h3] at h
    injection h with h'
    rw [← h']
    have hu0 : (0 : Int) ≤ i % (2 : Int) ^ 32 := Int.emod_nonneg i (by norm_num)
    have hu1 : i % (2 : Int) ^ 32 < 2 ^ 32 := Int.emod_lt_of_pos i (by norm_num)
    set u := (i % (2 : Int) ^ 32).toNat with hudef
    rw [show ((0x4A :: toLE 4 u) ++ r) =
      0x4A :: u % 256 :: u / 256 % 256 :: u / 256 / 256 % 256 :: u / 256 / 256 / 256 % 256 :: r
      from rfl]
    rw [show parseInt (0x4A :: u % 256 :: u / 256 % 256 :: u / 256 / 256 % 256 ::
      u / 256 / 256 / 256 % 256 :: r) =
      some (if u % 256 + 256 * (u / 256 % 256 + 256 * (u / 256 / 256 % 256 +
        256 * (u / 256 / 256 / 256 % 256))) < 2 ^ 31 then
          ((u % 256 + 256 * (u / 256 % 256 + 256 * (u / 256 / 256 % 256 +
            256 * (u / 256 / 256 / 256 % 256))) : Nat) : Int)
        else ((u % 256 + 256 * (u / 256 % 256 + 256 * (u / 256 / 256 % 256 +
          256 * (u / 256 / 256 / 256 % 256))) : Nat) : Int) - 2 ^ 32, r) from rfl]
    have hcollapse : u % 256 + 256 * (u / 256 % 256 + 256 * (u / 256 / 256 % 256 +
        256 * (u / 256 / 256 / 256 % 256))) = u := by omega
    rw [hcollapse]
    simp only [Option.some.injEq, Prod.mk.injEq]
    refine ⟨?_, trivial⟩
    by_cases hs : u < 2 ^ 31
    · rw [if_pos hs]
      omega
    · rw [if_neg hs]
      omega
  rw [if_neg h3] at h
  by_cases h4 : (encode_long i).length < 256
  · rw [if_pos h4] at h
    injection h with h'
    rw [← h']
    rw [show ((0x8A :: (encode_long i).length :: encode_long i) ++ r) =
      0x8A :: (encode_long i).length :: (encode_long i ++ r) from by simp]
    rw [show parseInt (0x8A :: (encode_long i).length :: (encode_long i ++ r)) = (do
      let (d, r2) ← readBytes (encode_long i).length (encode_long i ++ r)
      some (decode_long d, r2)) from rfl]
    rw [readBytes_exact rfl]
    simp only [Option.bind_eq_bind, Option.some_bind]
    rw [decode_long_encode_long]
  · rw [if_neg h4] at h
    by_cases h5 : (encode_long i).length < 2 ^ 31
    · rw [if_pos h5] at h
      injection h with h'
      rw [← h']
      set L := (encode_long i).length with hLdef
      rw [show ((0x8B :: toLE 4 L ++ encode_long i) ++ r) =
        0x8B :: L % 256 :: L / 256 % 256 :: L / 256 / 256 % 256 :: L / 256 / 256 / 256 % 256 ::
        (encode_long i ++ r) from by
          rw [show toLE 4 L = [L % 256, L / 256 % 256, L / 256 / 256 % 256,
            L / 256 / 256 / 256 % 256] from rfl]
          simp]
      rw [show parseInt (0x8B :: L % 256 :: L / 256 % 256 :: L / 256 / 256 % 256 ::
        L / 256 / 256 / 256 % 256 :: (encode_long i ++ r)) = (do
        let (d, r2) ← readBytes (L % 256 + 256 * (L / 256 % 256 + 256 * (L / 256 / 256 % 256 +
          256 * (L / 256 / 256 / 256 % 256)))) (encode_long i ++ r)
        some (decode_long d, r2)) from rfl]
      rw [show L % 256 + 256 * (L / 256 % 256 + 256 * (L / 256 / 256 % 256 +
        256 * (L / 256 / 256 / 256 % 256))) = L from by omega]
      rw [readBytes_exact hLdef.symm]
      simp only [Option.bind_eq_bind, Option.some_bind]
      rw [decode_long_encode_long]
    · rw [if_neg h5] at h
      exact absurd h (by simp)

theorem fin_ofNat'_val (v : PyFloat) : Fin.ofNat' (2 ^ 64) v.val = v := by
  apply Fin.ext
  simp only [Fin.ofNat']
  exact Nat.mod_eq_of_lt v.isLt

theorem parseItem_encodeMetric {m : Metric} {i : Nat} {b : List Nat}
    (h : encodeMetric m i = some b) (r : List Nat) :
    parseItem (b ++ r) = some (m, r) := by
  rw [encodeMetric] at h
  by_cases hL : (utf8Encode m.path).length < 2 ^ 32
  · rw [if_pos hL] at h
    simp only [Option.bind_eq_bind, Option.some_bind, Option.bind_eq_some,
      Option.some.injEq] at h
    obtain ⟨p1, hp1, ib, hib, p2, hp2, p3, hp3, hb⟩ := h
    rw [← hb]
    rw [show ((0x58 :: (toLE 4 (utf8Encode m.path).length ++ utf8Encode m.path ++ p1 ++ ib ++
      (0x47 :: toBE 8 m.value.val) ++ [0x86] ++ p2 ++ [0x86] ++ p3)) ++ r) =
      0x58 :: (toLE 4 (utf8Encode m.path).length ++ (utf8Encode m.path ++ (p1 ++ (ib ++
      (0x47 :: (toBE 8 m.value.val ++ (0x86 :: (p2 ++ (0x86 :: (p3 ++ r)))))))))) from by
        simp [List.append_assoc]]
    rw [parseItem, parseStr_block m.path _ hL]
    simp only [Option.bind_eq_bind, Option.some_bind]
    rw [parsePut_putOp hp1]
    simp only [Option.some_bind]
    rw [parseInt_saveInt hib]
    simp only [Option.some_bind]
    rw [expectByte_cons]
    simp only [Option.some_bind]
    rw [readBytes_exact (toBE_length 8 _)]
    simp only [Option.some_bind]
    rw [expectByte_cons]
    simp only [Option.some_bind]
    rw [parsePut_putOp hp2]
    simp only [Option.some_bind]
    rw [expectByte_cons]
    simp only [Option.some_bind]
    rw [parsePut_putOp hp3]
    simp only [Option.some_bind]
    rw [fromBE_toBE (by
      rw [show (256 : Nat) ^ 8 = 2 ^ 64 from by norm_num]
      exact m.value.isLt)]
    rw [fin_ofNat'_val]
  · rw [if_neg hL] at h
    simp at h

theorem encodeMetric_head {m : Metric} {i : Nat} {b : List Nat}
    (h : encodeMetric m i = some b) : ∃ tl, b = 0x58 :: tl := by
  rw [encodeMetric] at h
  by_cases hL : (utf8Encode m.path).length < 2 ^ 32
  · rw [if_pos hL] at h
    simp only [Option.bind_eq_bind, Option.some_bind, Option.bind_eq_some,
      Option.some.injEq] at h
    obtain ⟨p1, hp1, ib, hib, p2, hp2, p3, hp3, hb⟩ := h
    exact ⟨_, hb.symm⟩
  · rw [if_neg hL] at h
    simp at h

theorem parseGroupItems_stop (fuel : Nat) (r : List Nat) :
    parseGroupItems fuel (0x65 :: r) = some ([], r) := by
  cases fuel <;> rfl

theorem parseGroupItems_cons58 (f : Nat) (tl : List Nat) :
    parseGroupItems (f + 1) (0x58 :: tl) = (do
      let (m, r) ← parseItem (0x58 :: tl)
      let (ms, r2) ← parseGroupItems f r
      some (m :: ms, r2)) := rfl

theorem parseGroupItems_encodeItems {g : List Metric} {i : Nat} {gb : List Nat}
    (h : encodeItems g i = some gb) (fuel : Nat) (hf : g.length ≤ fuel) (r : List Nat) :
    parseGroupItems fuel (gb ++ 0x65 :: r) = some (g, r) := by
  induction g generalizing i gb fuel with
  | nil =>
    rw [encodeItems] at h
    injection h with h'
    rw [← h', List.nil_append]
    exact parseGroupItems_stop fuel r
  | cons m0 t ih =>
    rw [encodeItems] at h
    simp only [Option.bind_eq_bind, Option.bind_eq_some, Option.some.injEq] at h
    obtain ⟨mb, hmb, tb, htb, hgb⟩ := h
    cases fuel with
    | zero =>
      exfalso
      simp at hf
    | succ f =>
      obtain ⟨tl, htl⟩ := encodeMetric_head hmb
      rw [← hgb]
      rw [show (mb ++ tb) ++ 0x65 :: r = 0x58 :: (tl ++ (tb ++ 0x65 :: r)) from by
        rw [htl]; simp]
      rw [parseGroupItems_cons58]
      rw [show (0x58 :: (tl ++ (tb ++ 0x65 :: r))) = mb ++ (tb ++ 0x65 :: r) from by
        rw [htl]; simp]
      rw [parseItem_encodeMetric hmb]
      simp only [Option.bind_eq_bind, Option.some_bind]
      rw [ih htb f (by simpa using Nat.lt_succ_iff.mp (Nat.lt_of_lt_of_le
        (Nat.lt_succ_of_le (Nat.le_refl _)) hf))]
      rfl

theorem parseBody_stop (fuel : Nat) (r : List Nat) :
    parseBody fuel (0x2E :: r) = some [] := by
  cases fuel <;> rfl

theorem parseBody_mark (f : Nat) (s : List Nat) :
    parseBody (f + 1) (0x28 :: s) = (do
      let (g, r) ← parseGroupItems (f + 1) s
      let ms ← parseBody f r
      some (g ++ ms)) := rfl

theorem parseBody_item58 (f : Nat) (s : List Nat) :
    parseBody (f + 1) (0x58 :: s) = (do
      let (m, r) ← parseItem (0x58 :: s)
      let r2 ← expectByte 0x61 r
      let ms ← parseBody f r2
      some (m :: ms)) := rfl

theorem encodeItems_length {g : List Metric} {i : Nat} {gb : List Nat}
    (h : encodeItems g i = some gb) : g.length ≤ gb.length := by
  induction g generalizing i gb with
  | nil =>
    rw [encodeItems] at h
    injection h with h'
    rw [← h']
    exact Nat.le_refl _
  | cons m0 t ih =>
    rw [encodeItems] at h
    simp only [Option.bind_eq_bind, Option.bind_eq_some, Option.some.injEq] at h
    obtain ⟨mb, hmb, tb, htb, hgb⟩ := h
    obtain ⟨tl, htl⟩ := encodeMetric_head hmb
    have := ih htb
    rw [← hgb, htl]
    simp only [List.length_append, List.length_cons]
    omega

theorem encodeGroups_cons (m0 : Metric) (t : List Metric) (i : Nat) :
    encodeGroups (m0 :: t) i = (do
      let gb ← encodeItems ((m0 :: t).take 1000) i
      let rb ← encodeGroups ((m0 :: t).drop 1000) (i + ((m0 :: t).take 1000).length)
      some (0x28 :: (gb ++ [0x65] ++ rb))) := by
  rw [encodeGroups]

theorem encodeGroups_length (n : Nat) : ∀ (ms : List Metric), ms.length ≤ n →
    ∀ (i : Nat) (gb : List Nat), encodeGroups ms i = some gb → ms.length ≤ gb.length := by
  induction n with
  | zero =>
    intro ms hn i gb h
    have hms : ms = [] := List.length_eq_zero.mp (Nat.le_zero.mp hn)
    rw [hms] at h ⊢
    simp
  | succ n ih =>
    intro ms hn i gb h
    cases ms with
    | nil => simp
    | cons m0 t =>
      rw [encodeGroups_cons] at h
      simp only [Option.bind_eq_bind, Option.bind_eq_some, Option.some.injEq] at h
      obtain ⟨gbh, hgbh, rbh, hrbh, hgb⟩ := h
      have h1 := encodeItems_length hgbh
      have h2 := ih ((m0 :: t).drop 1000) (by
        simp only [List.length_drop, List.length_cons] at hn ⊢
        omega) _ _ hrbh
      rw [← hgb]
      simp only [List.length_cons, List.length_append, List.length_take,
        List.length_drop] at h1 h2 ⊢
      omega

theorem encodeBody_length {ms : List Metric} {body : List Nat}
    (h : encodeBody ms = some body) : ms.length ≤ body.length := by
  cases ms with
  | nil =>
    rw [encodeBody] at h
    injection h with h'
    rw [← h']
    simp
  | cons m0 t =>
    cases t with
    | nil =>
      rw [encodeBody] at h
      simp only [Option.bind_eq_bind, Option.bind_eq_some, Option.some.injEq] at h
      obtain ⟨mb, hmb, hbody⟩ := h
      obtain ⟨tl, htl⟩ := encodeMetric_head hmb
      rw [← hbody, htl]
      simp
    | cons m1 t2 =>
      have h' : encodeGroups (m0 :: m1 :: t2) 0 = some body := h
      exact encodeGroups_length (m0 :: m1 :: t2).length _ (Nat.le_refl _) _ _ h'

theorem parseBody_encodeGroups (n : Nat) : ∀ (ms : List Metric) (i : Nat) (gb : List Nat),
    encodeGroups ms i = some gb → ∀ fuel, ms.length + 1 ≤ fuel → fuel ≤ n →
    parseBody fuel (gb ++ [0x2E]) = some ms := by
  induction n with
  | zero =>
    intro ms i gb h fuel hf hn
    omega
  | succ n ih =>
    intro ms i gb h fuel hf hn
    cases ms with
    | nil =>
      rw [encodeGroups] at h
      injection h with h'
      rw [← h', List.nil_append]
      exact parseBody_stop fuel []
    | cons m0 t =>
      rw [encodeGroups_cons] at h
      simp only [Option.bind_eq_bind, Option.bind_eq_some, Option.some.injEq] at h
      obtain ⟨gbh, hgbh, rbh, hrbh, hgb⟩ := h
      cases fuel with
      | zero => omega
      | succ f =>
        rw [← hgb]
        rw [show (0x28 :: (gbh ++ [0x65] ++ rbh)) ++ [0x2E] =
          0x28 :: (gbh ++ 0x65 :: (rbh ++ [0x2E])) from by simp]
        rw [parseBody_mark]
        rw [parseGroupItems_encodeItems hgbh (f + 1) (by
          simp only [List.length_take, List.length_cons]
          simp only [List.length_cons] at hf
          omega)]
        simp only [Option.bind_eq_bind, Option.some_bind]
        rw [ih ((m0 :: t).drop 1000) _ _ hrbh f (by
          simp only [List.length_drop, List.length_cons]
          simp only [List.length_cons] at hf
          omega) (by omega)]
        simp only [Option.some_bind, Option.some.injEq]
        exact List.take_append_drop 1000 (m0 :: t)

theorem parseBody_encodeBody {ms : List Metric} {body : List Nat}
    (h : encodeBody ms = some body) (fuel : Nat) (hf : ms.length + 1 ≤ fuel) :
    parseBody fuel (body ++ [0x2E]) = some ms := by
  cases ms with
  | nil =>
    rw [encodeBody] at h
    injection h with h'
    rw [← h', List.nil_append]
    exact parseBody_stop fuel []
  | cons m0 t =>
    cases t with
    | nil =>
      rw [encodeBody] at h
      simp only [Option.bind_eq_bind, Option.bind_eq_some, Option.some.injEq] at h
      obtain ⟨mb, hmb, hbody⟩ := h
      obtain ⟨tl, htl⟩ := encodeMetric_head hmb
      cases fuel with
      | zero => omega
      | succ f =>
        rw [← hbody]
        rw [show (mb ++ [0x61]) ++ [0x2E] = 0x58 :: (tl ++ [0x61, 0x2E]) from by
          rw [htl]; simp]
        rw [parseBody_item58]
        rw [show (0x58 :: (tl ++ [0x61, 0x2E])) = mb ++ [0x61, 0x2E] from by
          rw [htl]; simp]
        rw [parseItem_encodeMetric hmb]
        simp only [Option.bind_eq_bind, Option.some_bind]
        rw [show ([0x61, 0x2E] : List Nat) = 0x61 :: [0x2E] from rfl, expectByte_cons]
        simp only [Option.some_bind]
        rw [parseBody_stop]
        rfl
    | cons m1 t2 =>
      have h' : encodeGroups (m0 :: m1 :: t2) 0 = some body := h
      exact parseBody_encodeGroups fuel _ _ _ h' fuel hf (Nat.le_refl _)

/-! ### C4 — length-prefixed framing -/

/-- C4: the framed message written to the collector is exactly the four-byte
big-endian length header followed by the protocol-2 pickle payload, and the
integer value of those four bytes equals the byte length of everything that
follows them. (The header is a 32-bit field, so the payload length must fit
in it — `struct.pack("!L", ...)` raises beyond that.) -/
theorem C4_framing (ms : List Metric) (payload : List Nat)
    (h : pickle_dumps ms = some payload) (hlen : payload.length < 2 ^ 32) :
    graphite_message ms = some (toBE 4 payload.length ++ payload) ∧
      (toBE 4 payload.length).length = 4 ∧
      fromBE ((toBE 4 payload.length ++ payload).take 4) =
        ((toBE 4 payload.length ++ payload).drop 4).length := by
  have h4 : (toBE 4 payload.length).length = 4 := toBE_length 4 _
  refine ⟨?_, h4, ?_⟩
  · rw [graphite_message, h]
    simp only [Option.bind_eq_bind, Option.some_bind]
    rw [pack_uint32, if_pos hlen]
    simp only [Option.some_bind]
  · rw [List.take_left' h4, List.drop_left' h4]
    exact fromBE_toBE (by
      rw [show (256 : Nat) ^ 4 = 2 ^ 32 from by norm_num]
      exact hlen)

/-- C4 witness: the framing property at the empty batch, whose payload is
the 6-byte empty pickled list. -/
theorem C4_witness :
    graphite_message [] =
      some (toBE 4 ([0x80, 2, 0x5D, 0x71, 0, 0x2E] : List Nat).length ++
        [0x80, 2, 0x5D, 0x71, 0, 0x2E]) ∧
      (toBE 4 ([0x80, 2, 0x5D, 0x71, 0, 0x2E] : List Nat).length).length = 4 ∧
      fromBE ((toBE 4 ([0x80, 2, 0x5D, 0x71, 0, 0x2E] : List Nat).length ++
          [0x80, 2, 0x5D, 0x71, 0, 0x2E]).take 4) =
        ((toBE 4 ([0x80, 2, 0x5D, 0x71, 0, 0x2E] : List Nat).length ++
          [0x80, 2, 0x5D, 0x71, 0, 0x2E]).drop 4).length :=
  C4_framing [] [0x80, 2, 0x5D, 0x71, 0, 0x2E] (by rfl) (by norm_num)

/-! ### C5 — decode is a left inverse of encode -/

/-- C5: for every non-empty batch of at most 10000 samples whose pickling
succeeds, the conforming reader decodes the payload of `pickle.dumps` back
to exactly the original batch. -/
theorem C5_roundtrip (b : List Metric) (payload : List Nat)
    (_hne : b ≠ []) (_hlen : b.length ≤ 10000)
    (henc : pickle_dumps b = some payload) :
    pickle_loads payload = some b := by
  rw [pickle_dumps] at henc
  simp only [Option.bind_eq_bind, Option.bind_eq_some, Option.some.injEq] at henc
  obtain ⟨body, hbody, hpl⟩ := henc
  have hblen := encodeBody_length hbody
  rw [← hpl]
  rw [show (([0x80, 2, 0x5D, 0x71, 0] : List Nat) ++ body ++ [0x2E]) =
    0x80 :: 2 :: 0x5D :: 0x71 :: 0 :: (body ++ [0x2E]) from by simp]
  rw [show pickle_loads (0x80 :: 2 :: 0x5D :: 0x71 :: 0 :: (body ++ [0x2E])) =
    parseBody (0x80 :: 2 :: 0x5D :: 0x71 :: 0 :: (body ++ [0x2E])).length (body ++ [0x2E])
    from rfl]
  apply parseBody_encodeBody hbody
  simp only [List.length_cons, List.length_append]
  omega

/-- C5 witness: the round trip at a concrete one-sample batch. -/
theorem C5_witness :
    pickle_loads ((pickle_dumps [metricW]).getD []) = some [metricW] :=
  C5_roundtrip [metricW] ((pickle_dumps [metricW]).getD []) (by simp) (by decide) (by rfl)
